import Mathlib

/-!
A shallow embedding of the text-analysis core of the obsidian-scroller plugin
(src/main.js): the sentence segmenter (findSentenceBoundaries), the document
and line model plus the focus-range computation (buildDecorations), and the
scroll-clamp / animation arithmetic (animateScrollTo).

Modelling conventions.  JS strings are List Char; JS numbers holding character
offsets are Nat (Int where a value can go negative); JS numbers holding pixel
quantities are ℚ.  The regular-expression character classes of the code
([.!?], the closing-punctuation class, \s) are executable Char predicates;
\p{L} and \p{Lu} (Unicode letters) are modelled on the Latin and Cyrillic
ranges, the alphabets the code's exception tables target.
-/

namespace Scroller

/-- JS regex /[.!?]/ (main.js line 261): sentence-terminal punctuation. -/
def isPunct (c : Char) : Bool := decide (c = '.' ∨ c = '!' ∨ c = '?')

/-- JS /\s/ and String.prototype.trim whitespace (core set: space, tab,
newline, carriage return, vertical tab, form feed, no-break space). -/
def isSpaceChar (c : Char) : Bool :=
  decide (c = ' ' ∨ c = '\t' ∨ c = '\n' ∨ c = '\r' ∨
    c = Char.ofNat 11 ∨ c = Char.ofNat 12 ∨ c = Char.ofNat 160)

/-- JS regex for closing punctuation, quotes, formatting characters and
whitespace skipped after a punctuation run (main.js line 268):
the characters ) ] closing-brace > apostrophe straight-quote » * _ ~
backtick, plus \s. -/
def isCloser (c : Char) : Bool :=
  decide (c = ')' ∨ c = ']' ∨ c = Char.ofNat 125 ∨ c = '>' ∨
    c = Char.ofNat 39 ∨ c = Char.ofNat 34 ∨ c = '»' ∨ c = '*' ∨ c = '_' ∨
    c = '~' ∨ c = Char.ofNat 96) || isSpaceChar c

/-- JS /\p{L}/u restricted to Latin A-Z a-z and Cyrillic А-я Ё ё. -/
def isLetterChar (c : Char) : Bool :=
  decide (('A' ≤ c ∧ c ≤ 'Z') ∨ ('a' ≤ c ∧ c ≤ 'z') ∨
    (0x0410 ≤ c.toNat ∧ c.toNat ≤ 0x044F) ∨ c.toNat = 0x0401 ∨ c.toNat = 0x0451)

/-- JS /\p{Lu}/u restricted to Latin A-Z and Cyrillic А-Я Ё. -/
def isUpperLetter (c : Char) : Bool :=
  decide (('A' ≤ c ∧ c ≤ 'Z') ∨ (0x0410 ≤ c.toNat ∧ c.toNat ≤ 0x042F) ∨
    c.toNat = 0x0401)

/-- JS String.prototype.toLowerCase restricted to Latin and Cyrillic. -/
def lowerChar (c : Char) : Char :=
  if 'A' ≤ c ∧ c ≤ 'Z' then Char.ofNat (c.toNat + 32)
  else if 0x0410 ≤ c.toNat ∧ c.toNat ≤ 0x042F then Char.ofNat (c.toNat + 32)
  else if c.toNat = 0x0401 then Char.ofNat 0x0451
  else c

/-- JS String.prototype.toUpperCase restricted to Latin and Cyrillic. -/
def upperChar (c : Char) : Char :=
  if 'a' ≤ c ∧ c ≤ 'z' then Char.ofNat (c.toNat - 32)
  else if 0x0430 ≤ c.toNat ∧ c.toNat ≤ 0x044F then Char.ofNat (c.toNat - 32)
  else if c.toNat = 0x0451 then Char.ofNat 0x0401
  else c

/-- Abbreviation for turning a string literal into the List Char model. -/
def strL (s : String) : List Char := s.toList

/-- main.js line 281: text.substring(0, i + 1).match(/\S+$/) — the maximal
run of non-whitespace characters ending the given prefix. -/
def trailingWord (t : List Char) : List Char :=
  (t.reverse.takeWhile (fun c => !isSpaceChar c)).reverse

/-- main.js line 288: .match(/\S+\s*$/) followed by .trim() — the last
non-whitespace run of the given prefix (empty when there is none). -/
def contextWord (t : List Char) : List Char :=
  ((t.reverse.dropWhile isSpaceChar).takeWhile (fun c => !isSpaceChar c)).reverse

/-- JS String.prototype.trim. -/
def trimChars (t : List Char) : List Char :=
  ((t.dropWhile isSpaceChar).reverse.dropWhile isSpaceChar).reverse

/-- main.js lines 291-296: the compound-abbreviation table
(д./п./э./ч. after т./н.). -/
def compoundAbbrevs (w : List Char) : Option (List (List Char)) :=
  if w = strL "д" then some [strL "т"]
  else if w = strL "п" then some [strL "т"]
  else if w = strL "э" then some [strL "н"]
  else if w = strL "ч" then some [strL "т"]
  else none

/-- main.js line 302: units of measure. -/
def unitAbbrevs : List (List Char) :=
  ["г", "кг", "т", "л", "мл", "м", "см", "мм", "км", "с", "мин", "ч"].map strL

/-- main.js line 307: currency. -/
def currencyAbbrevs : List (List Char) :=
  ["р", "руб", "коп", "$", "€"].map strL

/-- main.js line 312: magnitude words. -/
def numberAbbrevs : List (List Char) := ["тыс", "млн", "млрд"].map strL

/-- main.js line 317: honorific titles. -/
def titleAbbrevs : List (List Char) :=
  ["г", "г-н", "mr", "mrs", "ms", "dr"].map strL

/-- main.js line 322: academic titles. -/
def academicAbbrevs : List (List Char) :=
  ["проф", "док", "канд", "акад"].map strL

/-- main.js line 327: corporate suffixes. -/
def corporateAbbrevs : List (List Char) :=
  ["ооо", "оао", "зао", "inc", "ltd", "corp", "co"].map strL

/-- JS /^\p{L}+\.$/u: one or more letters followed by a single dot. -/
def isLettersDot (w : List Char) : Bool :=
  decide (w.getLast? = some '.') && !w.dropLast.isEmpty &&
  w.dropLast.all isLetterChar

/-- JS /^\p{L}\p{L}?\.$/u: one or two letters followed by a dot. -/
def isOneTwoLettersDot (w : List Char) : Bool :=
  match w with
  | [a, b] => isLetterChar a && decide (b = '.')
  | [a, b, c] => isLetterChar a && isLetterChar b && decide (c = '.')
  | _ => false

/-- JS /\d+\.\d*$/ (main.js line 333): the word ends with one or more digits,
a dot, then zero or more digits. -/
def endsDecimal (w : List Char) : Bool :=
  match w.reverse.dropWhile Char.isDigit with
  | c :: rest =>
    decide (c = '.') &&
    (match rest with
     | d :: _ => d.isDigit
     | [] => false)
  | [] => false

/-- \d+\.\d+\.\d+ matched at the head of the given suffix. -/
def matchVersionAt (w : List Char) : Bool :=
  !(w.takeWhile Char.isDigit).isEmpty &&
  (match w.dropWhile Char.isDigit with
   | c :: r2 =>
     decide (c = '.') && !(r2.takeWhile Char.isDigit).isEmpty &&
     (match r2.dropWhile Char.isDigit with
      | c2 :: r4 => decide (c2 = '.') && !(r4.takeWhile Char.isDigit).isEmpty
      | [] => false)
   | [] => false)

/-- JS /\d+\.\d+\.\d+/ (unanchored substring test, main.js line 354). -/
def containsVersion (w : List Char) : Bool := w.tails.any matchVersionAt

/-- JS /v\d+\.\d+\.\d+/i (unanchored substring test, main.js line 354). -/
def containsVersionV (w : List Char) : Bool :=
  w.tails.any (fun t =>
    match t with
    | c :: rest => (decide (c = 'v') || decide (c = 'V')) && matchVersionAt rest
    | [] => false)

/-- One JS scanning loop "while (k < text.length && p(text[k])) k++", started
at index j: the index of the first position at or after j that is past the
end of the text or fails p. -/
def skipWhileFrom (p : Char → Bool) (t : List Char) (j : Nat) : Nat :=
  j + ((t.drop j).takeWhile p).length

/-- main.js lines 263-270: endPos after extending past the punctuation run
starting at i and then the closing-punctuation/whitespace run. -/
def boundaryEnd (text : List Char) (i : Nat) : Nat :=
  skipWhileFrom isCloser text (skipWhileFrom isPunct text (i + 1))

/-- main.js lines 281-357: the boundary-rejection checks run when a
punctuation run at index i is followed (after closers/whitespace) by a
letter.  Each JS "continue" corresponds to one disjunct, in source order:
the abbreviation tables (guarded by word length ≤ 4 and shape letters+dot),
the trailing-decimal check, the capitalised one-or-two-letter-initial check,
and the version-string checks. -/
def rejectedAt (text : List Char) (i : Nat) : Bool :=
  let word := trailingWord (text.take (i + 1))
  if word.isEmpty then false
  else
    (if word.length ≤ 4 && isLettersDot word then
      let wd := word.dropLast.map lowerChar
      let ctx := (contextWord (text.take (i + 1 - word.length))).map lowerChar
      (match compoundAbbrevs wd with
       | some cs => cs.contains ctx
       | none => false) ||
      unitAbbrevs.contains wd || currencyAbbrevs.contains wd ||
      numberAbbrevs.contains wd || titleAbbrevs.contains wd ||
      academicAbbrevs.contains wd || corporateAbbrevs.contains wd
     else false) ||
    endsDecimal word ||
    (if isOneTwoLettersDot word && word.dropLast == word.dropLast.map upperChar
     then
      (match text.get? (skipWhileFrom isSpaceChar text (i + 1)) with
       | some c => isUpperLetter c
       | none => false)
     else false) ||
    containsVersionV word || containsVersion word

/-- main.js lines 257-361: the boundary-collection loop of
findSentenceBoundaries.  i is the loop index; fuel is a structural-recursion
bound (the loop advances i by at least one each iteration, so
text.length + 1 initial fuel is never exhausted — see scanAux_fuel_congr).
At a punctuation character the code extends past further punctuation, then
closers/whitespace; if that reaches the end of the text the position is
pushed and the loop breaks; if the next character is not a letter, or a
rejection rule fires, scanning resumes at i + 1; otherwise the position is
pushed and scanning resumes there (i = endPos - 1 followed by i++). -/
def scanAux (text : List Char) : Nat → Nat → List Nat
  | _, 0 => []
  | i, fuel + 1 =>
    if i < text.length then
      if (text.get? i).any isPunct then
        if text.length ≤ boundaryEnd text i then [boundaryEnd text i]
        else if !((text.get? (boundaryEnd text i)).any isLetterChar) then
          scanAux text (i + 1) fuel
        else if rejectedAt text i then scanAux text (i + 1) fuel
        else boundaryEnd text i :: scanAux text (boundaryEnd text i) fuel
      else scanAux text (i + 1) fuel
    else []

/-- The confirmed sentence-boundary list of a line of text. -/
def findBoundaries (text : List Char) : List Nat :=
  scanAux text 0 (text.length + 1)

/-- main.js lines 363-369: walk the boundary list keeping the running
sentence start, returning the first sentence whose end boundary is past the
position. -/
def pickLoop (position : Int) : List Nat → Nat → Option (Nat × Nat)
  | [], _ => none
  | b :: rest, s =>
    if position < (b : Int) then some (s, b) else pickLoop position rest b

/-- main.js line 375: boundaries.length > 1 ? boundaries[length - 2] : 0. -/
def prevBoundary (bs : List Nat) : Nat :=
  if 1 < bs.length then (bs.dropLast.getLast?).getD 0 else 0

/-- main.js lines 257-381: findSentenceBoundaries(text, position), returning
the (start, end) span of the sentence containing the position.  After the
selection loop, if the position is at or past the final boundary and only
whitespace remains after it, the previous sentence is returned; otherwise
the tail {last boundary or 0, text.length}. -/
def findSentenceBoundaries (text : List Char) (position : Int) : Nat × Nat :=
  match pickLoop position (findBoundaries text) 0 with
  | some r => r
  | none =>
    match (findBoundaries text).getLast? with
    | some lastB =>
      if (lastB : Int) ≤ position ∧ trimChars (text.drop lastB) = [] then
        (prevBoundary (findBoundaries text), lastB)
      else (lastB, text.length)
    | none => (0, text.length)

/-! ## Document and line model (CodeMirror Text / Line) -/

/-- One document line: 1-based number, start offset into the whole document
text, and content (doc.line(n).number/.from/.text in CodeMirror). -/
structure DocLine where
  num : Nat
  lfrom : Nat
  text : List Char
deriving DecidableEq, Repr

/-- line.to: start offset plus text length (the newline is not included). -/
def DocLine.lto (l : DocLine) : Nat := l.lfrom + l.text.length

/-- Build the line table of a document given as its list of line texts:
consecutive lines are separated by one newline character. -/
def mkLinesAux : List (List Char) → Nat → Nat → List DocLine
  | [], _, _ => []
  | t :: ts, f, n => ⟨n, f, t⟩ :: mkLinesAux ts (f + t.length + 1) (n + 1)

def mkLines (doc : List (List Char)) : List DocLine := mkLinesAux doc 0 1

/-- state.doc.length: total character count including newlines (a CodeMirror
document always has at least one line). -/
def docLength (doc : List (List Char)) : Nat :=
  (doc.map (fun t => t.length + 1)).sum - 1

/-- state.doc.lineAt(pos): the line containing the offset
(its from ≤ pos ≤ to).  Totalised: past-the-end offsets yield the last line,
and the empty table a dummy first line. -/
def lineAt : List DocLine → Nat → DocLine
  | [], _ => ⟨1, 0, []⟩
  | [l], _ => l
  | l :: l2 :: rest, pos => if pos ≤ l.lto then l else lineAt (l2 :: rest) pos

/-- line.text.trim().length === 0. -/
def isBlankText (t : List Char) : Bool := (trimChars t).isEmpty

/-! ## Configuration and the focus-range computation -/

/-- settings.focusMode; any value other than sentence/paragraph/section takes
the final else branch of buildDecorations, sect being the section mode. -/
inductive FocusMode
  | sentence
  | paragraph
  | sect
  | line
deriving DecidableEq, Repr

/-- The slice of the settings object that buildDecorations reads.  The header
pattern is represented by whether new RegExp(settings.sectionHeaderPattern)
compiles (headerOk) together with the compiled test on a line's text
(headerTest); success/failure of compilation and the test function are the
only behaviour of the regex the code observes. -/
structure Config where
  enableTypewriterMode : Bool
  restrictToDailyNotes : Bool
  enableContentDimming : Bool
  focusMode : FocusMode
  headerOk : Bool
  headerTest : List Char → Bool

/-- main.js lines 143-149. isActiveFileDailyNote() is host state, passed in
as the Boolean isDailyNote. -/
def shouldApplyTypewriterFeatures (cfg : Config) (isDailyNote : Bool) : Bool :=
  cfg.enableTypewriterMode && (!cfg.restrictToDailyNotes || isDailyNote)

/-- main.js lines 633-641: first non-blank line after line number num. -/
def findNextContentLine (ls : List DocLine) (num : Nat) : Option DocLine :=
  (ls.drop num).find? (fun l => !isBlankText l.text)

/-- The backward first-non-blank-line searches of buildDecorations
(main.js lines 417-426 and 464-475): lines num-1, num-2, ... in order. -/
def findPrevContentLine (ls : List DocLine) (num : Nat) : Option DocLine :=
  ((ls.take (num - 1)).reverse).find? (fun l => !isBlankText l.text)

/-- main.js lines 501-507: walk upward from the given start offset while
lines stay non-blank (the list is the preceding lines, nearest first). -/
def paraUp : List DocLine → Nat → Nat
  | [], s => s
  | l :: rest, s => if isBlankText l.text then s else paraUp rest l.lfrom

/-- main.js lines 509-515: walk downward from the given end offset while
lines stay non-blank (the list is the following lines in order). -/
def paraDown : List DocLine → Nat → Nat
  | [], e => e
  | l :: rest, e => if isBlankText l.text then e else paraDown rest l.lto

/-- main.js lines 526-551: from a blank cursor line, search backward for the
nearest non-blank line, then extend its paragraph upward. -/
def paraFromPrev : List DocLine → Option (Nat × Nat)
  | [] => none
  | l :: rest =>
    if isBlankText l.text then paraFromPrev rest
    else some (paraUp rest l.lfrom, l.lto)

/-- main.js lines 517-523 and 540-546: if the line immediately above the
paragraph start matches the header pattern, the paragraph absorbs it. -/
def absorbHeader (cfg : Config) (ls : List DocLine) (pStart : Nat) : Nat :=
  let startLine := lineAt ls pStart
  if 1 < startLine.num then
    match ls.get? (startLine.num - 2) with
    | some prevLine =>
      if cfg.headerTest prevLine.text then prevLine.lfrom else pStart
    | none => pStart
  else pStart

/-- main.js lines 566-572: the start offsets of all header-matching lines. -/
def headerFroms (cfg : Config) (ls : List DocLine) : List Nat :=
  (ls.filter (fun l => cfg.headerTest l.text)).map (fun l => l.lfrom)

/-- The decoration-relevant outcome of one buildDecorations pass:
empty — an early return of RangeSet.empty;
noFocus — no addDecoration call was made (null focus endpoints);
dimAll — the single call addDecoration(0, doc.length) (blank cursor line
with no preceding header, main.js line 441);
focus s e — the pair addDecoration(0, s); addDecoration(e, doc.length). -/
inductive DimOutcome
  | empty
  | noFocus
  | dimAll
  | focus (s e : Nat)
deriving DecidableEq, Repr

/-- main.js lines 383-598: buildDecorations up to (but not including) the
addDecoration emission, following the branch structure of the source.  In
the sentence-mode branch for a header line followed by a content line, both
arms of the JS headerEnd conditional (lines 433-437) compute the header
line's own end offset, modelled directly as cursorLine.lto resp. l.lto. -/
def focusOutcome (cfg : Config) (isDailyNote selectionEmpty : Bool)
    (doc : List (List Char)) (cursorPosition : Nat) : DimOutcome :=
  if !shouldApplyTypewriterFeatures cfg isDailyNote ||
     !cfg.enableContentDimming then .empty
  else if !selectionEmpty then .empty
  else
    let ls := mkLines doc
    let cursorLine := lineAt ls cursorPosition
    match cfg.focusMode with
    | .sentence =>
      if !cfg.headerOk then .empty
      else if isBlankText cursorLine.text then
        match findPrevContentLine ls cursorLine.num with
        | some l =>
          if cfg.headerTest l.text then .focus l.lfrom l.lto else .dimAll
        | none => .dimAll
      else if cfg.headerTest cursorLine.text then
        match findNextContentLine ls cursorLine.num with
        | some ncl =>
          .focus cursorLine.lfrom
            (ncl.lfrom + (findSentenceBoundaries ncl.text 0).2)
        | none => .focus cursorLine.lfrom cursorLine.lto
      else
        let sent := findSentenceBoundaries cursorLine.text
          ((cursorPosition : Int) - (cursorLine.lfrom : Int))
        if sent.1 = 0 then
          match findPrevContentLine ls cursorLine.num with
          | some l =>
            if cfg.headerTest l.text then
              .focus l.lfrom (cursorLine.lfrom + sent.2)
            else
              .focus (cursorLine.lfrom + sent.1) (cursorLine.lfrom + sent.2)
          | none =>
            .focus (cursorLine.lfrom + sent.1) (cursorLine.lfrom + sent.2)
        else .focus (cursorLine.lfrom + sent.1) (cursorLine.lfrom + sent.2)
    | .paragraph =>
      if !cfg.headerOk then .empty
      else if !isBlankText cursorLine.text then
        .focus
          (absorbHeader cfg ls
            (paraUp ((ls.take (cursorLine.num - 1)).reverse) cursorLine.lfrom))
          (paraDown (ls.drop cursorLine.num) cursorLine.lto)
      else
        match paraFromPrev ((ls.take (cursorLine.num - 1)).reverse) with
        | some pe => .focus (absorbHeader cfg ls pe.1) pe.2
        | none => .noFocus
    | .sect =>
      if !cfg.headerOk then .empty
      else
        let hps := headerFroms cfg ls
        match (hps.filter (fun p => decide (p ≤ cursorPosition))).getLast? with
        | some h =>
          match hps.find? (fun p => decide (h < p)) with
          | some h2 => .focus h h2
          | none => .focus h (docLength doc)
        | none =>
          match hps with
          | [] => .empty
          | h0 :: _ => .focus 0 h0
    | .line => .focus cursorLine.lfrom cursorLine.lto

/-- A decoration range {from, to}. -/
structure Span where
  sfrom : Nat
  sto : Nat
deriving DecidableEq, Repr

/-- main.js lines 397-401: push the range only if from < to, 0 ≤ from and
to ≤ doc.length (from is a Nat here, so 0 ≤ from is implicit). -/
def addDecoration (docLen : Nat) (acc : List Span) (f t : Nat) : List Span :=
  if f < t ∧ t ≤ docLen then acc ++ [⟨f, t⟩] else acc

/-- main.js line 601: decorationBuilder.sort((a, b) => a.from - b.from),
modelled as an insertion sort on the start offset. -/
def insertSpan (s : Span) : List Span → List Span
  | [] => [s]
  | t :: ts => if s.sfrom ≤ t.sfrom then s :: t :: ts else t :: insertSpan s ts

def sortSpans : List Span → List Span
  | [] => []
  | s :: ss => insertSpan s (sortSpans ss)

/-- The addDecoration calls made for each outcome (main.js lines 429-441,
479-482, 553-556, 591-592, 596-597) followed by the sort at line 601. -/
def renderOutcome (docLen : Nat) : DimOutcome → List Span
  | .empty => []
  | .noFocus => []
  | .dimAll => sortSpans (addDecoration docLen [] 0 docLen)
  | .focus s e =>
    sortSpans (addDecoration docLen (addDecoration docLen [] 0 s) e docLen)

/-- main.js lines 383-605: the full buildDecorations, as the list of dim
ranges (sorted by start offset). -/
def buildDecorations (cfg : Config) (isDailyNote selectionEmpty : Bool)
    (doc : List (List Char)) (cursorPosition : Nat) : List Span :=
  renderOutcome (docLength doc)
    (focusOutcome cfg isDailyNote selectionEmpty doc cursorPosition)

/-- How many of the spans contain the character position k. -/
def countIn (spans : List Span) (k : Nat) : Nat :=
  (spans.filter (fun s => decide (s.sfrom ≤ k ∧ k < s.sto))).length

/-! ## Scroll clamp and animation arithmetic -/

/-- main.js line 163 / 675: Math.max(0, scrollHeight - clientHeight). -/
def maxScrollTop (scrollHeight clientHeight : ℚ) : ℚ :=
  max 0 (scrollHeight - clientHeight)

/-- main.js line 164 / 676 (identical in the ViewPlugin and ScrollerPlugin
copies of animateScrollTo): the applied scroll target
Math.max(0, Math.min(targetTop, maxTop)). -/
def clampScrollTarget (targetTop scrollHeight clientHeight : ℚ) : ℚ :=
  max 0 (min targetTop (maxScrollTop scrollHeight clientHeight))

/-- main.js line 176 / 686: the ease-out cubic t ↦ 1 - (1 - t)^3. -/
def easeOutCubic (t : ℚ) : ℚ := 1 - (1 - t) ^ 3

/-- main.js lines 180-182 / 690-692: the progress p clamped into [0, 1]. -/
def clamp01 (t : ℚ) : ℚ := if t < 0 then 0 else if 1 < t then 1 else t

/-- main.js line 183 / 693: val = from + (to - from) * ease(p), with
endpoints a (from) and b (to). -/
def animValue (a b t : ℚ) : ℚ := a + (b - a) * easeOutCubic (clamp01 t)

/-! ## Lemmas: the boundary scan and sentence selection -/

theorem skipWhileFrom_ge (p : Char → Bool) (t : List Char) (j : Nat) :
    j ≤ skipWhileFrom p t j :=
  Nat.le_add_right _ _

theorem skipWhileFrom_le (p : Char → Bool) (t : List Char) (j : Nat)
    (h : j ≤ t.length) : skipWhileFrom p t j ≤ t.length := by
  have h1 : ((t.drop j).takeWhile p).length ≤ (t.drop j).length :=
    (List.takeWhile_sublist p).length_le
  rw [List.length_drop] at h1
  unfold skipWhileFrom
  omega

theorem boundaryEnd_ge (text : List Char) (i : Nat) :
    i + 1 ≤ boundaryEnd text i :=
  le_trans (skipWhileFrom_ge isPunct text (i + 1))
    (skipWhileFrom_ge isCloser text _)

theorem boundaryEnd_le (text : List Char) (i : Nat)
    (h : i + 1 ≤ text.length) : boundaryEnd text i ≤ text.length :=
  skipWhileFrom_le isCloser text _ (skipWhileFrom_le isPunct text (i + 1) h)

theorem scanAux_ge (text : List Char) (i fuel : Nat)
    (h : text.length ≤ i) : scanAux text i fuel = [] := by
  cases fuel with
  | zero => rfl
  | succ n =>
    rw [scanAux]
    rw [if_neg (by omega)]

/-- Fuel adequacy: the scan is independent of the fuel once the fuel covers
the remaining text (each iteration consumes one unit of fuel and advances
the index by at least one), so text.length + 1 initial fuel models the
unbounded JS loop exactly. -/
theorem scanAux_fuel_congr (text : List Char) :
    ∀ fuel fuel' i, text.length ≤ i + fuel → text.length ≤ i + fuel' →
      scanAux text i fuel = scanAux text i fuel' := by
  intro fuel
  induction fuel with
  | zero =>
    intro fuel' i h _
    rw [scanAux_ge text i 0 (by omega), scanAux_ge text i fuel' (by omega)]
  | succ n ih =>
    intro fuel' i h h'
    cases fuel' with
    | zero =>
      rw [scanAux_ge text i (n + 1) (by omega),
        scanAux_ge text i 0 (by omega)]
    | succ m =>
      rw [scanAux, scanAux]
      by_cases hi : i < text.length
      · rw [if_pos hi, if_pos hi]
        by_cases hp : ((text.get? i).any isPunct) = true
        · rw [if_pos hp, if_pos hp]
          by_cases hend : text.length ≤ boundaryEnd text i
          · rw [if_pos hend, if_pos hend]
          · rw [if_neg hend, if_neg hend]
            have hbe := boundaryEnd_ge text i
            by_cases hlet :
                (!((text.get? (boundaryEnd text i)).any isLetterChar)) = true
            · rw [if_pos hlet, if_pos hlet]
              exact ih m (i + 1) (by omega) (by omega)
            · rw [if_neg hlet, if_neg hlet]
              by_cases hrej : rejectedAt text i = true
              · rw [if_pos hrej, if_pos hrej]
                exact ih m (i + 1) (by omega) (by omega)
              · rw [if_neg hrej, if_neg hrej]
                rw [ih m (boundaryEnd text i) (by omega) (by omega)]
        · rw [if_neg hp, if_neg hp]
          exact ih m (i + 1) (by omega) (by omega)
      · rw [if_neg hi, if_neg hi]

/-- Every collected boundary lies strictly beyond the loop index and within
the text. -/
theorem scanAux_mem (text : List Char) :
    ∀ fuel i b, b ∈ scanAux text i fuel → i < b ∧ b ≤ text.length := by
  intro fuel
  induction fuel with
  | zero => intro i b h; simp [scanAux] at h
  | succ n ih =>
    intro i b h
    rw [scanAux] at h
    split at h
    case isTrue hi =>
      split at h
      case isTrue hp =>
        split at h
        case isTrue hend =>
          have h1 := boundaryEnd_ge text i
          have h2 := boundaryEnd_le text i hi
          simp at h
          omega
        case isFalse hend =>
          split at h
          case isTrue hlet =>
            have := ih (i + 1) b h
            omega
          case isFalse hlet =>
            split at h
            case isTrue hrej =>
              have := ih (i + 1) b h
              omega
            case isFalse hrej =>
              have h1 := boundaryEnd_ge text i
              rcases List.mem_cons.mp h with rfl | hb
              · omega
              · have := ih (boundaryEnd text i) b hb
                omega
      case isFalse hp =>
        have := ih (i + 1) b h
        omega
    case isFalse hi => simp at h

/-- The collected boundary list is strictly increasing. -/
theorem scanAux_pairwise (text : List Char) :
    ∀ fuel i, List.Pairwise (· < ·) (scanAux text i fuel) := by
  intro fuel
  induction fuel with
  | zero => intro i; simp [scanAux]
  | succ n ih =>
    intro i
    rw [scanAux]
    split
    · split
      · split
        · simp
        · split
          · exact ih (i + 1)
          · split
            · exact ih (i + 1)
            · refine List.Pairwise.cons ?_ (ih _)
              intro b hb
              exact (scanAux_mem text n (boundaryEnd text i) b hb).1
      · exact ih (i + 1)
    · simp

theorem findBoundaries_mem {text : List Char} {b : Nat}
    (h : b ∈ findBoundaries text) : 0 < b ∧ b ≤ text.length := by
  have := scanAux_mem text (text.length + 1) 0 b h
  omega

theorem findBoundaries_pairwise (text : List Char) :
    List.Pairwise (· < ·) (findBoundaries text) :=
  scanAux_pairwise text (text.length + 1) 0

/-- The last element of an option-valued getLast? is a member. -/
theorem mem_getLast?_of {α : Type} {l : List α} {m : α}
    (h : l.getLast? = some m) : m ∈ l := by
  induction l with
  | nil => simp at h
  | cons a rest ih =>
    cases rest with
    | nil =>
      simp [List.getLast?_singleton] at h
      simp [h]
    | cons b r2 =>
      rw [List.getLast?_cons_cons] at h
      exact List.mem_cons_of_mem _ (ih h)

/-- In a strictly increasing list the last element is the maximum. -/
theorem pairwise_getLast_max {l : List Nat} {m : Nat}
    (hpw : List.Pairwise (· < ·) l) (h : l.getLast? = some m) :
    ∀ x ∈ l, x ≤ m := by
  induction l with
  | nil => simp
  | cons a rest ih =>
    intro x hx
    cases rest with
    | nil =>
      simp [List.getLast?_singleton] at h
      simp at hx
      omega
    | cons b r2 =>
      rw [List.getLast?_cons_cons] at h
      rcases List.mem_cons.mp hx with rfl | hx2
      · have hm : m ∈ b :: r2 := mem_getLast?_of h
        have := (List.pairwise_cons.mp hpw).1 m hm
        omega
      · exact ih hpw.of_cons h x hx2

/-- In a strictly increasing list every element before the last is smaller. -/
theorem pairwise_dropLast_lt {l : List Nat} {m : Nat}
    (hpw : List.Pairwise (· < ·) l) (h : l.getLast? = some m) :
    ∀ x ∈ l.dropLast, x < m := by
  induction l with
  | nil => simp
  | cons a rest ih =>
    intro x hx
    cases rest with
    | nil => simp at hx
    | cons b r2 =>
      rw [List.getLast?_cons_cons] at h
      rw [List.dropLast_cons₂] at hx
      rcases List.mem_cons.mp hx with rfl | hx2
      · have hm : m ∈ b :: r2 := mem_getLast?_of h
        exact (List.pairwise_cons.mp hpw).1 m hm
      · exact ih hpw.of_cons h x hx2

theorem prevBoundary_lt {bs : List Nat} {m : Nat}
    (hpw : List.Pairwise (· < ·) bs) (hpos : ∀ x ∈ bs, 0 < x)
    (h : bs.getLast? = some m) : prevBoundary bs < m := by
  unfold prevBoundary
  split
  case isTrue hlen =>
    rcases hq : bs.dropLast.getLast? with _ | p
    · rw [List.getLast?_eq_none_iff] at hq
      have := congrArg List.length hq
      simp [List.length_dropLast] at this
      omega
    · have hp : p ∈ bs.dropLast := mem_getLast?_of hq
      have := pairwise_dropLast_lt hpw h p hp
      simpa [hq] using this
  case isFalse hlen =>
    exact hpos m (mem_getLast?_of h)

theorem pickLoop_none_of (pos : Int) :
    ∀ (bs : List Nat) (s0 : Nat), (∀ x ∈ bs, (x : Int) ≤ pos) →
      pickLoop pos bs s0 = none := by
  intro bs
  induction bs with
  | nil => intro s0 _; rfl
  | cons c rest ih =>
    intro s0 h
    rw [pickLoop]
    rw [if_neg (by have := h c (List.mem_cons_self _ _); omega)]
    exact ih c (fun x hx => h x (List.mem_cons_of_mem _ hx))

theorem pickLoop_some_bounds (pos : Int) :
    ∀ (bs : List Nat) (s0 s b : Nat), List.Pairwise (· < ·) bs →
      (∀ x ∈ bs, s0 < x) → pickLoop pos bs s0 = some (s, b) →
      (s = s0 ∨ s ∈ bs) ∧ b ∈ bs ∧ s < b := by
  intro bs
  induction bs with
  | nil => intro s0 s b _ _ h; simp [pickLoop] at h
  | cons c rest ih =>
    intro s0 s b hpw hgt h
    rw [pickLoop] at h
    split at h
    · simp only [Option.some.injEq, Prod.mk.injEq] at h
      obtain ⟨rfl, rfl⟩ := h
      exact ⟨Or.inl rfl, List.mem_cons_self _ _,
        hgt _ (List.mem_cons_self _ _)⟩
    · have hrec := ih c s b hpw.of_cons
        (fun x hx => (List.pairwise_cons.mp hpw).1 x hx) h
      refine ⟨?_, List.mem_cons_of_mem _ hrec.2.1, hrec.2.2⟩
      rcases hrec.1 with rfl | hs
      · exact Or.inr (List.mem_cons_self _ _)
      · exact Or.inr (List.mem_cons_of_mem _ hs)

/-- Full characterisation of a successful selection-loop pass: the returned
span is bracketed by boundaries (or 0), contains the position, and no
boundary falls strictly inside it. -/
theorem pickLoop_spec (pos : Int) :
    ∀ (bs : List Nat) (s0 s b : Nat), List.Pairwise (· < ·) bs →
      (∀ x ∈ bs, s0 < x) → (s0 : Int) ≤ pos →
      pickLoop pos bs s0 = some (s, b) →
      (s = s0 ∨ s ∈ bs) ∧ b ∈ bs ∧ (s : Int) ≤ pos ∧ pos < (b : Int) ∧
      (∀ x ∈ bs, x ≤ s ∨ b ≤ x) := by
  intro bs
  induction bs with
  | nil => intro s0 s b _ _ _ h; simp [pickLoop] at h
  | cons c rest ih =>
    intro s0 s b hpw hgt hle h
    rw [pickLoop] at h
    split at h
    case isTrue hlt =>
      simp only [Option.some.injEq, Prod.mk.injEq] at h
      obtain ⟨rfl, rfl⟩ := h
      refine ⟨Or.inl rfl, List.mem_cons_self _ _, hle, hlt, ?_⟩
      intro x hx
      rcases List.mem_cons.mp hx with rfl | hx2
      · exact Or.inr le_rfl
      · exact Or.inr (le_of_lt ((List.pairwise_cons.mp hpw).1 x hx2))
    case isFalse hlt =>
      have hcle : (c : Int) ≤ pos := by omega
      obtain ⟨hs, hb, hsle, hblt, hsep⟩ := ih c s b hpw.of_cons
        (fun x hx => (List.pairwise_cons.mp hpw).1 x hx) hcle h
      refine ⟨?_, List.mem_cons_of_mem _ hb, hsle, hblt, ?_⟩
      · rcases hs with rfl | hs2
        · exact Or.inr (List.mem_cons_self _ _)
        · exact Or.inr (List.mem_cons_of_mem _ hs2)
      · intro x hx
        rcases List.mem_cons.mp hx with rfl | hx2
        · rcases hs with rfl | hs2
          · exact Or.inl le_rfl
          · exact Or.inl (le_of_lt ((List.pairwise_cons.mp hpw).1 s hs2))
        · exact hsep x hx2

theorem pickLoop_none_forall (pos : Int) :
    ∀ (bs : List Nat) (s0 : Nat), pickLoop pos bs s0 = none →
      ∀ b ∈ bs, (b : Int) ≤ pos := by
  intro bs
  induction bs with
  | nil => intro s0 _ b hb; simp at hb
  | cons c rest ih =>
    intro s0 h b hb
    rw [pickLoop] at h
    split at h
    case isTrue => simp at h
    case isFalse hlt =>
      rcases List.mem_cons.mp hb with rfl | hb2
      · omega
      · exact ih c h b hb2

/-- The segmenter always returns a well-formed span. -/
theorem findSentenceBoundaries_bounds (text : List Char) (pos : Int) :
    (findSentenceBoundaries text pos).1 ≤ (findSentenceBoundaries text pos).2 ∧
    (findSentenceBoundaries text pos).2 ≤ text.length := by
  have hpw := findBoundaries_pairwise text
  unfold findSentenceBoundaries
  rcases hp : pickLoop pos (findBoundaries text) 0 with _ | ⟨s, b⟩
  · rcases hl : (findBoundaries text).getLast? with _ | lastB
    · simp
    · have hb := findBoundaries_mem (mem_getLast?_of hl)
      simp only []
      split
      case isTrue hcond =>
        have hprev := prevBoundary_lt hpw
          (fun x hx => (findBoundaries_mem hx).1) hl
        exact ⟨le_of_lt hprev, hb.2⟩
      case isFalse hcond => exact ⟨hb.2, le_rfl⟩
  · obtain ⟨hs, hb, hlt⟩ := pickLoop_some_bounds pos (findBoundaries text)
      0 s b hpw (fun x hx => (findBoundaries_mem hx).1) hp
    exact ⟨le_of_lt hlt, (findBoundaries_mem hb).2⟩

/-! ## Lemmas: the line table -/

theorem mkLinesAux_ne_nil {doc : List (List Char)} (h : doc ≠ []) (f n : Nat) :
    mkLinesAux doc f n ≠ [] := by
  cases doc with
  | nil => exact absurd rfl h
  | cons t ts => simp [mkLinesAux]

theorem mkLinesAux_lfrom_ge :
    ∀ (ls : List (List Char)) (f n : Nat), ∀ l ∈ mkLinesAux ls f n,
      f ≤ l.lfrom := by
  intro ls
  induction ls with
  | nil => intro f n l h; simp [mkLinesAux] at h
  | cons t ts ih =>
    intro f n l h
    rw [mkLinesAux] at h
    rcases List.mem_cons.mp h with rfl | h2
    · exact le_rfl
    · have := ih (f + t.length + 1) (n + 1) l h2
      omega

theorem mkLinesAux_num_ge :
    ∀ (ls : List (List Char)) (f n : Nat), ∀ l ∈ mkLinesAux ls f n,
      n ≤ l.num := by
  intro ls
  induction ls with
  | nil => intro f n l h; simp [mkLinesAux] at h
  | cons t ts ih =>
    intro f n l h
    rw [mkLinesAux] at h
    rcases List.mem_cons.mp h with rfl | h2
    · exact le_rfl
    · have := ih (f + t.length + 1) (n + 1) l h2
      omega

theorem mkLinesAux_lto_le :
    ∀ (ls : List (List Char)) (f n : Nat), ∀ l ∈ mkLinesAux ls f n,
      l.lto + 1 ≤ f + (ls.map (fun t => t.length + 1)).sum := by
  intro ls
  induction ls with
  | nil => intro f n l h; simp [mkLinesAux] at h
  | cons t ts ih =>
    intro f n l h
    rw [mkLinesAux] at h
    rw [List.map_cons, List.sum_cons]
    rcases List.mem_cons.mp h with rfl | h2
    · simp [DocLine.lto]
      omega
    · have := ih (f + t.length + 1) (n + 1) l h2
      omega

/-- Every line ends within the document. -/
theorem line_lto_le_docLength {doc : List (List Char)} {l : DocLine}
    (h : l ∈ mkLines doc) : l.lto ≤ docLength doc := by
  have := mkLinesAux_lto_le doc 0 1 l h
  unfold docLength
  omega

/-- Lines appear in the table in strictly increasing offset order, separated
by the newline. -/
theorem mkLinesAux_pairwise :
    ∀ (ls : List (List Char)) (f n : Nat),
      List.Pairwise (fun a b => a.lto < b.lfrom) (mkLinesAux ls f n) := by
  intro ls
  induction ls with
  | nil => intro f n; simp [mkLinesAux]
  | cons t ts ih =>
    intro f n
    rw [mkLinesAux]
    refine List.Pairwise.cons ?_ (ih _ _)
    intro l hl
    have := mkLinesAux_lfrom_ge ts (f + t.length + 1) (n + 1) l hl
    simp [DocLine.lto]
    omega

theorem mkLinesAux_get_num :
    ∀ (ls : List (List Char)) (f n i : Nat) (l : DocLine),
      (mkLinesAux ls f n).get? i = some l → l.num = n + i := by
  intro ls
  induction ls with
  | nil => intro f n i l h; simp [mkLinesAux] at h
  | cons t ts ih =>
    intro f n i l h
    rw [mkLinesAux] at h
    cases i with
    | zero =>
      rw [List.get?_cons_zero] at h
      simp only [Option.some.injEq] at h
      rw [← h]
      simp
    | succ j =>
      rw [List.get?_cons_succ] at h
      have := ih (f + t.length + 1) (n + 1) j l h
      omega

theorem lineAt_mem :
    ∀ (ls : List DocLine) (pos : Nat), ls ≠ [] → lineAt ls pos ∈ ls := by
  intro ls
  induction ls with
  | nil => intro pos h; exact absurd rfl h
  | cons l rest ih =>
    intro pos _
    cases rest with
    | nil => simp [lineAt]
    | cons l2 r2 =>
      rw [lineAt]
      split
      · exact List.mem_cons_self _ _
      · exact List.mem_cons_of_mem _ (ih pos (by simp))

/-- With a contiguous line table starting at f, lineAt never returns a line
starting after pos. -/
theorem lineAt_lfrom_le :
    ∀ (ls : List (List Char)) (f n pos : Nat), f ≤ pos →
      (lineAt (mkLinesAux ls f n) pos).lfrom ≤ pos := by
  intro ls
  induction ls with
  | nil =>
    intro f n pos _
    simp [mkLinesAux, lineAt]
  | cons t ts ih =>
    intro f n pos h
    rw [mkLinesAux]
    cases ts with
    | nil => simpa [mkLinesAux, lineAt] using h
    | cons t2 ts2 =>
      rw [mkLinesAux]
      rw [lineAt]
      split
      case isTrue => exact h
      case isFalse hgt =>
        have h2 : f + t.length + 1 ≤ pos := by
          simp [DocLine.lto] at hgt
          omega
        have := ih (f + t.length + 1) (n + 1) pos h2
        rw [mkLinesAux] at this
        exact this

/-- The line returned by lineAt sits at index num - n of the table. -/
theorem lineAt_get? :
    ∀ (ls : List (List Char)) (f n pos : Nat), ls ≠ [] →
      (mkLinesAux ls f n).get? ((lineAt (mkLinesAux ls f n) pos).num - n) =
        some (lineAt (mkLinesAux ls f n) pos) := by
  intro ls
  induction ls with
  | nil => intro f n pos h; exact absurd rfl h
  | cons t ts ih =>
    intro f n pos _
    rw [mkLinesAux]
    cases ts with
    | nil => simp [mkLinesAux, lineAt]
    | cons t2 ts2 =>
      rw [mkLinesAux]
      rw [lineAt]
      split
      case isTrue => simp
      case isFalse hgt =>
        have hrec := ih (f + t.length + 1) (n + 1) pos (by simp)
        rw [mkLinesAux] at hrec
        set r := lineAt (⟨n + 1, f + t.length + 1, t2⟩ ::
          mkLinesAux ts2 (f + t.length + 1 + t2.length + 1) (n + 2)) pos
          with hr
        have hmem : r ∈ ⟨n + 1, f + t.length + 1, t2⟩ ::
            mkLinesAux ts2 (f + t.length + 1 + t2.length + 1) (n + 2) :=
          lineAt_mem _ pos (by simp)
        have hnum : n + 1 ≤ r.num := by
          have := mkLinesAux_num_ge (t2 :: ts2) (f + t.length + 1) (n + 1)
          rw [mkLinesAux] at this
          exact this r hmem
        have hk : r.num - n = (r.num - (n + 1)) + 1 := by omega
        rw [hk, List.get?_cons_succ]
        exact hrec

/-- Generic: in a pairwise list, everything before the element at index i is
related to it. -/
theorem pairwise_take_of_get? {α : Type} {R : α → α → Prop} :
    ∀ (L : List α) (i : Nat) (c : α), List.Pairwise R L → L.get? i = some c →
      ∀ x ∈ L.take i, R x c := by
  intro L
  induction L with
  | nil => intro i c _ h; simp at h
  | cons a rest ih =>
    intro i c hpw h
    cases i with
    | zero => simp
    | succ j =>
      rw [List.get?_cons_succ] at h
      intro x hx
      rw [List.take_succ_cons] at hx
      rcases List.mem_cons.mp hx with rfl | hx2
      · exact (List.pairwise_cons.mp hpw).1 c (List.get?_mem h)
      · exact ih j c hpw.of_cons h x hx2

/-- Generic: in a pairwise list, the element at index i is related to
everything after it. -/
theorem pairwise_drop_of_get? {α : Type} {R : α → α → Prop} :
    ∀ (L : List α) (i : Nat) (c : α), List.Pairwise R L → L.get? i = some c →
      ∀ x ∈ L.drop (i + 1), R c x := by
  intro L
  induction L with
  | nil => intro i c _ h; simp at h
  | cons a rest ih =>
    intro i c hpw h
    cases i with
    | zero =>
      rw [List.get?_cons_zero] at h
      simp only [Option.some.injEq] at h
      subst h
      simpa using (List.pairwise_cons.mp hpw).1
    | succ j =>
      rw [List.get?_cons_succ] at h
      rw [List.drop_succ_cons]
      exact ih j c hpw.of_cons h

/-- The lines strictly before the cursor line end before it starts. -/
theorem cursorLine_before {doc : List (List Char)} (hdoc : doc ≠ [])
    (pos : Nat) :
    ∀ l' ∈ (mkLines doc).take ((lineAt (mkLines doc) pos).num - 1),
      l'.lto < (lineAt (mkLines doc) pos).lfrom := by
  intro l' hl'
  exact pairwise_take_of_get? (mkLines doc) _ _ (mkLinesAux_pairwise doc 0 1)
    (lineAt_get? doc 0 1 pos hdoc) l' hl'

/-- The lines strictly after the cursor line start after it ends. -/
theorem cursorLine_after {doc : List (List Char)} (hdoc : doc ≠ [])
    (pos : Nat) :
    ∀ l' ∈ (mkLines doc).drop ((lineAt (mkLines doc) pos).num),
      (lineAt (mkLines doc) pos).lto < l'.lfrom := by
  intro l' hl'
  have hnum : 1 ≤ (lineAt (mkLines doc) pos).num :=
    mkLinesAux_num_ge doc 0 1 _ (lineAt_mem _ pos (mkLinesAux_ne_nil hdoc 0 1))
  have hk : (lineAt (mkLines doc) pos).num =
      ((lineAt (mkLines doc) pos).num - 1) + 1 := by omega
  rw [hk] at hl'
  exact pairwise_drop_of_get? (mkLines doc) _ _ (mkLinesAux_pairwise doc 0 1)
    (lineAt_get? doc 0 1 pos hdoc) l' hl'

/-- Header absorption can only move the paragraph start towards 0. -/
theorem absorbHeader_le (cfg : Config) {doc : List (List Char)}
    (hdoc : doc ≠ []) (p : Nat) : absorbHeader cfg (mkLines doc) p ≤ p := by
  unfold absorbHeader
  simp only []
  split
  case isTrue hnum =>
    rcases hq : (mkLines doc).get? ((lineAt (mkLines doc) p).num - 2)
      with _ | prevLine
    · simp
    · simp only [hq]
      split
      case isTrue hh =>
        have h1 : (lineAt (mkLines doc) p).lfrom ≤ p :=
          lineAt_lfrom_le doc 0 1 p (Nat.zero_le _)
        have hmem : prevLine ∈
            (mkLines doc).take ((lineAt (mkLines doc) p).num - 1) := by
          have hq2 : ((mkLines doc).take
              ((lineAt (mkLines doc) p).num - 1)).get?
              ((lineAt (mkLines doc) p).num - 2) = some prevLine := by
            rw [List.get?_take (by omega)]
            exact hq
          exact List.get?_mem hq2
        have h2 := cursorLine_before hdoc p prevLine hmem
        have h3 : prevLine.lfrom ≤ prevLine.lto := by
          simp [DocLine.lto]
        omega
      case isFalse => exact le_rfl
  case isFalse => exact le_rfl

theorem paraUp_cases :
    ∀ (L : List DocLine) (s : Nat),
      paraUp L s = s ∨ ∃ l ∈ L, paraUp L s = l.lfrom := by
  intro L
  induction L with
  | nil => intro s; exact Or.inl rfl
  | cons l rest ih =>
    intro s
    rw [paraUp]
    split
    · exact Or.inl rfl
    · rcases ih l.lfrom with h | ⟨l2, hl2, h⟩
      · exact Or.inr ⟨l, List.mem_cons_self _ _, h⟩
      · exact Or.inr ⟨l2, List.mem_cons_of_mem _ hl2, h⟩

theorem paraDown_cases :
    ∀ (L : List DocLine) (e : Nat),
      paraDown L e = e ∨ ∃ l ∈ L, paraDown L e = l.lto := by
  intro L
  induction L with
  | nil => intro e; exact Or.inl rfl
  | cons l rest ih =>
    intro e
    rw [paraDown]
    split
    · exact Or.inl rfl
    · rcases ih l.lto with h | ⟨l2, hl2, h⟩
      · exact Or.inr ⟨l, List.mem_cons_self _ _, h⟩
      · exact Or.inr ⟨l2, List.mem_cons_of_mem _ hl2, h⟩

/-- On a backward (descending) line list, the blank-branch paragraph search
returns a well-ordered span whose endpoints are line boundaries. -/
theorem paraFromPrev_spec :
    ∀ (L : List DocLine), List.Pairwise (fun a b => b.lto < a.lfrom) L →
      ∀ pS pE, paraFromPrev L = some (pS, pE) →
        pS ≤ pE ∧ (∃ l ∈ L, pE = l.lto) ∧ (∃ l ∈ L, pS = l.lfrom) := by
  intro L
  induction L with
  | nil => intro _ pS pE h; simp [paraFromPrev] at h
  | cons l rest ih =>
    intro hpw pS pE h
    rw [paraFromPrev] at h
    split at h
    · obtain ⟨h1, h2, h3⟩ := ih hpw.of_cons pS pE h
      exact ⟨h1, h2.imp (fun x hx => ⟨List.mem_cons_of_mem _ hx.1, hx.2⟩),
        h3.imp (fun x hx => ⟨List.mem_cons_of_mem _ hx.1, hx.2⟩)⟩
    · simp only [Option.some.injEq, Prod.mk.injEq] at h
      obtain ⟨rfl, rfl⟩ := h
      refine ⟨?_, ⟨l, List.mem_cons_self _ _, rfl⟩, ?_⟩
      · rcases paraUp_cases rest l.lfrom with h | ⟨l2, hl2, h⟩
        · rw [h]; simp [DocLine.lto]
        · rw [h]
          have := (List.pairwise_cons.mp hpw).1 l2 hl2
          have h3 : l2.lfrom ≤ l2.lto := by simp [DocLine.lto]
          have h4 : l.lfrom ≤ l.lto := by simp [DocLine.lto]
          omega
      · rcases paraUp_cases rest l.lfrom with h | ⟨l2, hl2, h⟩
        · exact ⟨l, List.mem_cons_self _ _, h⟩
        · exact ⟨l2, List.mem_cons_of_mem _ hl2, h⟩

/-- Header start offsets are strictly increasing. -/
theorem headerFroms_pairwise (cfg : Config) (doc : List (List Char)) :
    List.Pairwise (· < ·) (headerFroms cfg (mkLines doc)) := by
  unfold headerFroms
  rw [List.pairwise_map]
  have hpw := List.Pairwise.sublist
    (List.filter_sublist (p := fun l => cfg.headerTest l.text) (mkLines doc))
    (mkLinesAux_pairwise doc 0 1)
  exact hpw.imp (fun {a b} h => by
    have : a.lfrom ≤ a.lto := by simp [DocLine.lto]
    omega)

/-- Header start offsets lie within the document. -/
theorem headerFroms_le {cfg : Config} {doc : List (List Char)} {h : Nat}
    (hmem : h ∈ headerFroms cfg (mkLines doc)) : h ≤ docLength doc := by
  unfold headerFroms at hmem
  obtain ⟨l, hl, rfl⟩ := List.mem_map.mp hmem
  have h1 : l ∈ mkLines doc := (List.mem_filter.mp hl).1
  have h2 := line_lto_le_docLength h1
  have h3 : l.lfrom ≤ l.lto := by simp [DocLine.lto]
  omega

/-- find? over a sorted list returns the minimum satisfying element. -/
theorem find?_min_sorted {bs : List Nat} {S h2 : Nat}
    (hpw : List.Pairwise (· < ·) bs)
    (h : bs.find? (fun p => decide (S < p)) = some h2) :
    ∀ x ∈ bs, S < x → h2 ≤ x := by
  induction bs with
  | nil => simp at h
  | cons c rest ih =>
    by_cases hc : S < c
    · rw [List.find?_cons_of_pos _ (by simpa using hc)] at h
      simp only [Option.some.injEq] at h
      subst h
      intro x hx _
      rcases List.mem_cons.mp hx with rfl | hx2
      · exact le_rfl
      · exact le_of_lt ((List.pairwise_cons.mp hpw).1 x hx2)
    · rw [List.find?_cons_of_neg _ (by simpa using hc)] at h
      intro x hx hSx
      rcases List.mem_cons.mp hx with rfl | hx2
      · exact absurd hSx hc
      · exact ih hpw.of_cons h x hx2 hSx

/-! ## Lemmas: rendering and coverage -/

theorem countIn_append (a b : List Span) (k : Nat) :
    countIn (a ++ b) k = countIn a k + countIn b k := by
  unfold countIn
  rw [List.filter_append, List.length_append]

theorem countIn_single (x : Span) (k : Nat) :
    countIn [x] k = if x.sfrom ≤ k ∧ k < x.sto then 1 else 0 := by
  by_cases hc : x.sfrom ≤ k ∧ k < x.sto <;> simp [countIn, hc]

theorem countIn_nil (k : Nat) : countIn [] k = 0 := rfl

theorem addDecoration_pos {docLen : Nat} (acc : List Span) (f t : Nat)
    (h : f < t ∧ t ≤ docLen) :
    addDecoration docLen acc f t = acc ++ [⟨f, t⟩] := by
  unfold addDecoration
  exact if_pos h

theorem addDecoration_neg {docLen : Nat} (acc : List Span) (f t : Nat)
    (h : ¬(f < t ∧ t ≤ docLen)) : addDecoration docLen acc f t = acc := by
  unfold addDecoration
  exact if_neg h

/-- The two guarded addDecoration calls of a focus outcome produce exactly
the non-empty complement spans, already sorted by start offset. -/
theorem renderOutcome_focus {docLen s e : Nat} (hse : s ≤ e)
    (hed : e ≤ docLen) :
    renderOutcome docLen (.focus s e) =
      (if 0 < s then [(⟨0, s⟩ : Span)] else []) ++
      (if e < docLen then [(⟨e, docLen⟩ : Span)] else []) := by
  have hsd : s ≤ docLen := le_trans hse hed
  by_cases h1 : 0 < s <;> by_cases h2 : e < docLen
  · rw [if_pos h1, if_pos h2]
    simp only [renderOutcome]
    rw [addDecoration_pos _ 0 s ⟨h1, hsd⟩, List.nil_append,
      addDecoration_pos _ e docLen ⟨h2, le_rfl⟩]
    simp [sortSpans, insertSpan]
  · rw [if_pos h1, if_neg h2, List.append_nil]
    simp only [renderOutcome]
    rw [addDecoration_pos _ 0 s ⟨h1, hsd⟩, List.nil_append,
      addDecoration_neg _ e docLen (by omega)]
    simp [sortSpans, insertSpan]
  · rw [if_neg h1, if_pos h2, List.nil_append]
    simp only [renderOutcome]
    rw [addDecoration_neg _ 0 s (by omega),
      addDecoration_pos _ e docLen ⟨h2, le_rfl⟩]
    simp [sortSpans, insertSpan]
  · rw [if_neg h1, if_neg h2, List.append_nil]
    simp only [renderOutcome]
    rw [addDecoration_neg _ 0 s (by omega),
      addDecoration_neg _ e docLen (by omega)]
    rfl

/-- Each position of the document is covered exactly once by the dim spans
together with the focus unit. -/
theorem dim_cover {docLen s e : Nat} (hse : s ≤ e) (hed : e ≤ docLen)
    (k : Nat) (hk : k < docLen) :
    countIn ((if 0 < s then [(⟨0, s⟩ : Span)] else []) ++
        (if e < docLen then [(⟨e, docLen⟩ : Span)] else [])) k +
      (if s ≤ k ∧ k < e then 1 else 0) = 1 := by
  by_cases h1 : 0 < s <;> by_cases h2 : e < docLen
  · rw [if_pos h1, if_pos h2, countIn_append, countIn_single, countIn_single]
    dsimp only
    split_ifs <;> omega
  · rw [if_pos h1, if_neg h2, List.append_nil, countIn_single]
    dsimp only
    split_ifs <;> omega
  · rw [if_neg h1, if_pos h2, List.nil_append, countIn_single]
    dsimp only
    split_ifs <;> omega
  · rw [if_neg h1, if_neg h2, List.append_nil, countIn_nil]
    split_ifs <;> omega

/-! ## Lemmas: focus outcome bounds -/

theorem mem_of_findPrev {doc : List (List Char)} (hdoc : doc ≠ [])
    {pos : Nat} {l : DocLine}
    (h : findPrevContentLine (mkLines doc)
      (lineAt (mkLines doc) pos).num = some l) :
    l ∈ mkLines doc ∧ l.lto < (lineAt (mkLines doc) pos).lfrom := by
  unfold findPrevContentLine at h
  have hm := List.mem_of_find?_eq_some h
  rw [List.mem_reverse] at hm
  exact ⟨(List.take_sublist _ _).subset hm, cursorLine_before hdoc pos l hm⟩

theorem mem_of_findNext {doc : List (List Char)} (hdoc : doc ≠ [])
    {pos : Nat} {ncl : DocLine}
    (h : findNextContentLine (mkLines doc)
      (lineAt (mkLines doc) pos).num = some ncl) :
    ncl ∈ mkLines doc ∧ (lineAt (mkLines doc) pos).lto < ncl.lfrom := by
  unfold findNextContentLine at h
  have hm := List.mem_of_find?_eq_some h
  exact ⟨(List.drop_sublist _ _).subset hm, cursorLine_after hdoc pos ncl hm⟩

/-- The reversed backward line list is descending. -/
theorem prevRev_pairwise (doc : List (List Char)) (n : Nat) :
    List.Pairwise (fun a b => b.lto < a.lfrom)
      (((mkLines doc).take (n - 1)).reverse) := by
  rw [List.pairwise_reverse]
  exact List.Pairwise.sublist (List.take_sublist _ _)
    (mkLinesAux_pairwise doc 0 1)

/-- Whenever buildDecorations reaches an addDecoration(0, s);
addDecoration(e, doc.length) pair, the focus endpoints are ordered and lie
within the document. -/
theorem focusOutcome_bounds {cfg : Config} {daily selEmpty : Bool}
    {doc : List (List Char)} {cursor S E : Nat} (hdoc : doc ≠ [])
    (hf : focusOutcome cfg daily selEmpty doc cursor = .focus S E) :
    S ≤ E ∧ E ≤ docLength doc := by
  have hlsne : mkLines doc ≠ [] := mkLinesAux_ne_nil hdoc 0 1
  have hclmem : lineAt (mkLines doc) cursor ∈ mkLines doc :=
    lineAt_mem _ _ hlsne
  have hcl_lto := line_lto_le_docLength hclmem
  have hcl_ff : (lineAt (mkLines doc) cursor).lfrom ≤
      (lineAt (mkLines doc) cursor).lto := by simp [DocLine.lto]
  simp only [focusOutcome] at hf
  split at hf
  · simp at hf
  split at hf
  · simp at hf
  split at hf
  -- sentence mode
  case h_1 =>
    split at hf
    · simp at hf
    split at hf
    -- blank cursor line
    case isTrue =>
      split at hf
      case h_1 l hl =>
        split at hf
        case isTrue =>
          simp only [DimOutcome.focus.injEq] at hf
          obtain ⟨rfl, rfl⟩ := hf
          have hm := mem_of_findPrev hdoc hl
          exact ⟨by simp [DocLine.lto], line_lto_le_docLength hm.1⟩
        case isFalse => simp at hf
      case h_2 => simp at hf
    -- non-blank cursor line
    case isFalse =>
      split at hf
      -- cursor line is a header
      case isTrue =>
        split at hf
        case h_1 ncl hncl =>
          simp only [DimOutcome.focus.injEq] at hf
          obtain ⟨rfl, rfl⟩ := hf
          obtain ⟨hm1, hm2⟩ := mem_of_findNext hdoc hncl
          obtain ⟨hb1, hb2⟩ := findSentenceBoundaries_bounds ncl.text 0
          have h2 := line_lto_le_docLength hm1
          have h4 : ncl.lto = ncl.lfrom + ncl.text.length := rfl
          exact ⟨by omega, by omega⟩
        case h_2 =>
          simp only [DimOutcome.focus.injEq] at hf
          obtain ⟨rfl, rfl⟩ := hf
          exact ⟨hcl_ff, hcl_lto⟩
      -- plain sentence
      case isFalse =>
        obtain ⟨hb1, hb2⟩ := findSentenceBoundaries_bounds
          (lineAt (mkLines doc) cursor).text
          ((cursor : Int) - ((lineAt (mkLines doc) cursor).lfrom : Int))
        have hlt : (lineAt (mkLines doc) cursor).lto =
            (lineAt (mkLines doc) cursor).lfrom +
            (lineAt (mkLines doc) cursor).text.length := rfl
        split at hf
        case isTrue h0 =>
          split at hf
          case h_1 l hl =>
            split at hf
            case isTrue =>
              simp only [DimOutcome.focus.injEq] at hf
              obtain ⟨rfl, rfl⟩ := hf
              obtain ⟨hm1, hm2⟩ := mem_of_findPrev hdoc hl
              have h3 : l.lfrom ≤ l.lto := by simp [DocLine.lto]
              exact ⟨by omega, by omega⟩
            case isFalse =>
              simp only [DimOutcome.focus.injEq] at hf
              obtain ⟨rfl, rfl⟩ := hf
              exact ⟨by omega, by omega⟩
          case h_2 =>
            simp only [DimOutcome.focus.injEq] at hf
            obtain ⟨rfl, rfl⟩ := hf
            exact ⟨by omega, by omega⟩
        case isFalse =>
          simp only [DimOutcome.focus.injEq] at hf
          obtain ⟨rfl, rfl⟩ := hf
          exact ⟨by omega, by omega⟩
  -- paragraph mode
  case h_2 =>
    split at hf
    · simp at hf
    split at hf
    case isTrue =>
      simp only [DimOutcome.focus.injEq] at hf
      obtain ⟨rfl, rfl⟩ := hf
      have habs := absorbHeader_le cfg hdoc
        (paraUp (((mkLines doc).take
          ((lineAt (mkLines doc) cursor).num - 1)).reverse)
          (lineAt (mkLines doc) cursor).lfrom)
      have hup : paraUp (((mkLines doc).take
          ((lineAt (mkLines doc) cursor).num - 1)).reverse)
          (lineAt (mkLines doc) cursor).lfrom ≤
          (lineAt (mkLines doc) cursor).lfrom := by
        rcases paraUp_cases (((mkLines doc).take
            ((lineAt (mkLines doc) cursor).num - 1)).reverse)
            (lineAt (mkLines doc) cursor).lfrom with h | ⟨l2, hl2, h⟩
        · omega
        · rw [List.mem_reverse] at hl2
          have := cursorLine_before hdoc cursor l2 hl2
          have h3 : l2.lfrom ≤ l2.lto := by simp [DocLine.lto]
          omega
      have hdown : (lineAt (mkLines doc) cursor).lto ≤
          paraDown ((mkLines doc).drop
            (lineAt (mkLines doc) cursor).num)
            (lineAt (mkLines doc) cursor).lto ∧
          paraDown ((mkLines doc).drop
            (lineAt (mkLines doc) cursor).num)
            (lineAt (mkLines doc) cursor).lto ≤ docLength doc := by
        rcases paraDown_cases ((mkLines doc).drop
            (lineAt (mkLines doc) cursor).num)
            (lineAt (mkLines doc) cursor).lto with h | ⟨l3, hl3, h⟩
        · omega
        · have h1 := cursorLine_after hdoc cursor l3 hl3
          have h2 := line_lto_le_docLength ((List.drop_sublist _ _).subset hl3)
          have h3 : l3.lfrom ≤ l3.lto := by simp [DocLine.lto]
          omega
      exact ⟨by omega, hdown.2⟩
    case isFalse =>
      split at hf
      case h_1 pe hpe =>
        simp only [DimOutcome.focus.injEq] at hf
        obtain ⟨rfl, rfl⟩ := hf
        obtain ⟨h1, ⟨l, hl, h2⟩, -⟩ := paraFromPrev_spec _
          (prevRev_pairwise doc (lineAt (mkLines doc) cursor).num)
          pe.1 pe.2 hpe
        rw [List.mem_reverse] at hl
        have h3 := line_lto_le_docLength ((List.take_sublist _ _).subset hl)
        have habs := absorbHeader_le cfg hdoc pe.1
        constructor
        · omega
        · omega
      case h_2 => simp at hf
  -- section mode
  case h_3 =>
    split at hf
    · simp at hf
    split at hf
    case h_1 h hlast =>
      have hmemf : h ∈ headerFroms cfg (mkLines doc) :=
        (List.mem_filter.mp (mem_getLast?_of hlast)).1
      have hhle := headerFroms_le hmemf
      split at hf
      case h_1 h2 hfind =>
        simp only [DimOutcome.focus.injEq] at hf
        obtain ⟨rfl, rfl⟩ := hf
        exact ⟨le_of_lt (by simpa using List.find?_some hfind),
          headerFroms_le (List.mem_of_find?_eq_some hfind)⟩
      case h_2 =>
        simp only [DimOutcome.focus.injEq] at hf
        obtain ⟨rfl, rfl⟩ := hf
        exact ⟨hhle, le_rfl⟩
    case h_2 =>
      split at hf
      case h_1 => simp at hf
      case h_2 h0 rest hps =>
        simp only [DimOutcome.focus.injEq] at hf
        obtain ⟨rfl, rfl⟩ := hf
        have hmem : h0 ∈ headerFroms cfg (mkLines doc) := by
          rw [hps]
          exact List.mem_cons_self _ _
        exact ⟨Nat.zero_le _, headerFroms_le hmem⟩
  -- line mode
  case h_4 =>
    simp only [DimOutcome.focus.injEq] at hf
    obtain ⟨rfl, rfl⟩ := hf
    exact ⟨hcl_ff, hcl_lto⟩

/-! ## Claim theorems -/

/-- C9: For every pair of endpoints from and to, the animation interpolation
value(t) = from + (to - from)·(1 - (1 - t)^3) with t clamped to [0, 1]
yields exactly from when sampled at t = 0 and exactly to at t = 1. -/
theorem animation_endpoints (a b : ℚ) :
    animValue a b 0 = a ∧ animValue a b 1 = b := by
  refine ⟨?_, ?_⟩ <;>
  · norm_num [animValue, clamp01, easeOutCubic]
    try ring

/-- C8: For every raw target scroll offset and every scroll geometry, the
applied scroll offset is clamped into [0, maxScrollTop], where maxScrollTop
is the non-negative difference between scrollable height and viewport
height: the applied offset is never negative and never past the content. -/
theorem scroll_clamp (targetTop scrollHeight clientHeight : ℚ) :
    0 ≤ clampScrollTarget targetTop scrollHeight clientHeight ∧
    clampScrollTarget targetTop scrollHeight clientHeight ≤
      maxScrollTop scrollHeight clientHeight ∧
    0 ≤ maxScrollTop scrollHeight clientHeight :=
  ⟨le_max_left _ _,
   max_le (le_max_left _ _) (min_le_right _ _),
   le_max_left _ _⟩

/-- C7: For every input line text, the confirmed sentence-boundary list is
strictly increasing and every boundary offset is at most the line length. -/
theorem boundaries_strictly_increasing (text : List Char) :
    List.Pairwise (· < ·) (findBoundaries text) ∧
    ∀ b ∈ findBoundaries text, b ≤ text.length :=
  ⟨findBoundaries_pairwise text, fun _ hb => (findBoundaries_mem hb).2⟩

/-- C10: the sentence segmenter is total and always returns a well-formed
range: for every text and every integer position (also negative or past the
text length), findSentenceBoundaries returns start ≤ end ≤ text length
(start and end are Nat, hence non-negative); being a Lean function of these
executable definitions, no branch throws or indexes out of bounds. -/
theorem segmenter_total (text : List Char) (position : Int) :
    (findSentenceBoundaries text position).1 ≤
      (findSentenceBoundaries text position).2 ∧
    (findSentenceBoundaries text position).2 ≤ text.length :=
  findSentenceBoundaries_bounds text position

/-- C5: a period after a recognized abbreviation is not a sentence end: in
"г. Москва." the candidate boundary after the first period (offset 3) is
not confirmed — the only boundary is 10, the whole line is one sentence
ending at the final period; in "Dr. Smith left." no boundary is confirmed
after "Dr." (offset 4) — the only boundary is 15 and the sentence
containing position 0 spans the whole line. -/
theorem abbreviation_periods_not_boundaries :
    findBoundaries (strL "г. Москва.") = [10] ∧
    findSentenceBoundaries (strL "г. Москва.") 0 = (0, 10) ∧
    findBoundaries (strL "Dr. Smith left.") = [15] ∧
    findSentenceBoundaries (strL "Dr. Smith left.") 0 = (0, 15) :=
  ⟨by decide, by decide, by decide, by decide⟩

/-- C6: no boundary is confirmed inside a dotted version token: in
"v1.2.3 released." the only confirmed boundary is 16 (neither period of
"v1.2.3" is one), so the sentence containing position 0 spans the whole
line and ends only at the final period. -/
theorem version_periods_not_boundaries :
    findBoundaries (strL "v1.2.3 released.") = [16] ∧
    findSentenceBoundaries (strL "v1.2.3 released.") 0 = (0, 16) :=
  ⟨by decide, by decide⟩

/-- C4: for a position inside the line, the segmenter returns the sentence
whose start ≤ position < next boundary (the returned end is the least
boundary past the position and no boundary falls strictly inside the span);
and when the boundary list is non-empty, the position is at or past the
final boundary, and only whitespace remains after the final boundary, it
returns the previous sentence {previousBoundary, finalBoundary}. -/
theorem sentence_selection_correct (text : List Char) (pos : Int)
    (hpos : 0 ≤ pos) :
    ((∃ b ∈ findBoundaries text, pos < (b : Int)) →
      ((findSentenceBoundaries text pos).1 : Int) ≤ pos ∧
      pos < ((findSentenceBoundaries text pos).2 : Int) ∧
      (findSentenceBoundaries text pos).2 ∈ findBoundaries text ∧
      ((findSentenceBoundaries text pos).1 = 0 ∨
        (findSentenceBoundaries text pos).1 ∈ findBoundaries text) ∧
      (∀ b ∈ findBoundaries text,
        b ≤ (findSentenceBoundaries text pos).1 ∨
        (findSentenceBoundaries text pos).2 ≤ b)) ∧
    (∀ lastB, (findBoundaries text).getLast? = some lastB →
      (lastB : Int) ≤ pos → trimChars (text.drop lastB) = [] →
      findSentenceBoundaries text pos =
        (prevBoundary (findBoundaries text), lastB) ∧
      prevBoundary (findBoundaries text) < lastB) := by
  have hpw := findBoundaries_pairwise text
  have hpos1 : ∀ x ∈ findBoundaries text, 0 < x :=
    fun x hx => (findBoundaries_mem hx).1
  constructor
  · intro hex
    rcases hpk : pickLoop pos (findBoundaries text) 0 with _ | ⟨s, b⟩
    · exfalso
      obtain ⟨b, hb, hlt⟩ := hex
      have := pickLoop_none_forall pos (findBoundaries text) 0 hpk b hb
      omega
    · obtain ⟨hs, hb, hsle, hblt, hsep⟩ := pickLoop_spec pos
        (findBoundaries text) 0 s b hpw hpos1 (by exact_mod_cast hpos) hpk
      have hr : findSentenceBoundaries text pos = (s, b) := by
        unfold findSentenceBoundaries
        rw [hpk]
      rw [hr]
      exact ⟨hsle, hblt, hb, hs, hsep⟩
  · intro lastB hlast hle htrim
    have hall : ∀ x ∈ findBoundaries text, (x : Int) ≤ pos := by
      intro x hx
      have := pairwise_getLast_max hpw hlast x hx
      omega
    have hpk := pickLoop_none_of pos (findBoundaries text) 0 hall
    have hr : findSentenceBoundaries text pos =
        (prevBoundary (findBoundaries text), lastB) := by
      unfold findSentenceBoundaries
      rw [hpk, hlast]
      show (if (lastB : Int) ≤ pos ∧ trimChars (text.drop lastB) = [] then
          (prevBoundary (findBoundaries text), lastB)
        else (lastB, text.length)) =
        (prevBoundary (findBoundaries text), lastB)
      rw [if_pos ⟨hle, htrim⟩]
    exact ⟨hr, prevBoundary_lt hpw hpos1 hlast⟩

/-- Witness for C4: in "Ab. Cd. " (boundaries [4, 8]) the sentence around
position 0 ends at a confirmed boundary, and at position 8 — at the final
boundary with only whitespace after — the previous sentence (4, 8) is
returned. -/
theorem sentence_selection_correct_witness :
    (findSentenceBoundaries (strL "Ab. Cd. ") 0).2 ∈
      findBoundaries (strL "Ab. Cd. ") ∧
    findSentenceBoundaries (strL "Ab. Cd. ") 8 =
      (prevBoundary (findBoundaries (strL "Ab. Cd. ")), 8) := by
  constructor
  · exact (((sentence_selection_correct (strL "Ab. Cd. ") 0
      (by decide)).1 (by decide)).2.2.1)
  · exact ((sentence_selection_correct (strL "Ab. Cd. ") 8
      (by decide)).2 8 (by decide) (by decide) (by decide)).1

/-- C1: for every document, cursor offset and configuration under which the
focus-range computation produces a focus unit [S, E), the emitted dim
ranges are exactly the spans [0, S) and [E, docLength), each emitted only
if non-empty, sorted by start offset, and the dim ranges plus the focus
unit cover every document position exactly once. -/
theorem focus_dim_ranges_complement (cfg : Config) (daily selEmpty : Bool)
    (doc : List (List Char)) (cursor S E : Nat) (hdoc : doc ≠ [])
    (hcur : cursor ≤ docLength doc)
    (hf : focusOutcome cfg daily selEmpty doc cursor = .focus S E) :
    S ≤ E ∧ E ≤ docLength doc ∧
    buildDecorations cfg daily selEmpty doc cursor =
      (if 0 < S then [(⟨0, S⟩ : Span)] else []) ++
      (if E < docLength doc then [(⟨E, docLength doc⟩ : Span)] else []) ∧
    (∀ k, k < docLength doc →
      countIn (buildDecorations cfg daily selEmpty doc cursor) k +
        (if S ≤ k ∧ k < E then 1 else 0) = 1) := by
  obtain ⟨h1, h2⟩ := focusOutcome_bounds hdoc hf
  have hrender : buildDecorations cfg daily selEmpty doc cursor =
      (if 0 < S then [(⟨0, S⟩ : Span)] else []) ++
      (if E < docLength doc then [(⟨E, docLength doc⟩ : Span)] else []) := by
    unfold buildDecorations
    rw [hf]
    exact renderOutcome_focus h1 h2
  refine ⟨h1, h2, hrender, ?_⟩
  intro k hk
  rw [hrender]
  exact dim_cover h1 h2 k hk

/-- Witness for C1: the line-mode focus unit [3, 5) of a two-line document
dims exactly [0, 3) and covers the document together with the focus. -/
theorem focus_dim_ranges_complement_witness :
    3 ≤ 5 ∧ 5 ≤ docLength [strL "ab", strL "cd"] ∧
    buildDecorations ⟨true, false, true, .line, false, fun _ => false⟩
      false true [strL "ab", strL "cd"] 3 =
      (if 0 < 3 then [(⟨0, 3⟩ : Span)] else []) ++
      (if 5 < docLength [strL "ab", strL "cd"] then
        [(⟨5, docLength [strL "ab", strL "cd"]⟩ : Span)] else []) ∧
    (∀ k, k < docLength [strL "ab", strL "cd"] →
      countIn (buildDecorations ⟨true, false, true, .line, false,
          fun _ => false⟩ false true [strL "ab", strL "cd"] 3) k +
        (if 3 ≤ k ∧ k < 5 then 1 else 0) = 1) :=
  focus_dim_ranges_complement _ false true _ 3 3 5 (by decide) (by decide)
    (by decide)

/-- C2 counterexample: in line mode the header pattern is never consulted,
so with a non-compiling pattern (headerOk = false), dimming enabled and an
empty selection, buildDecorations still returns a non-empty range list —
the claim "empty whenever the pattern fails to compile" fails for the line
mode. -/
theorem line_mode_invalid_pattern_not_empty :
    buildDecorations ⟨true, false, true, .line, false, fun _ => false⟩
      false true [strL "ab", strL "cd"] 0 ≠ [] := by decide

/-- C2 (amended): the focus-range computation returns an empty range list
whenever the selection is non-empty or a relevant feature toggle
(typewriter gating / content dimming) is off, in every mode; in the
sentence, paragraph and section modes — the modes that consult the header
pattern — it also returns an empty list whenever the pattern fails to
compile (headerOk = false), the compile failure never escaping as an
error.  In line mode the pattern is not consulted. -/
theorem empty_ranges_gating (cfg : Config) (daily selEmpty : Bool)
    (doc : List (List Char)) (cursor : Nat) :
    ((shouldApplyTypewriterFeatures cfg daily = false ∨
      cfg.enableContentDimming = false ∨ selEmpty = false) →
      buildDecorations cfg daily selEmpty doc cursor = []) ∧
    (cfg.focusMode ≠ .line → cfg.headerOk = false →
      buildDecorations cfg daily selEmpty doc cursor = []) := by
  constructor
  · intro h
    unfold buildDecorations
    have hout : focusOutcome cfg daily selEmpty doc cursor = .empty := by
      unfold focusOutcome
      rcases h with h | h | h
      · rw [if_pos (by simp [h])]
      · rw [if_pos (by simp [h])]
      · by_cases hg : (!shouldApplyTypewriterFeatures cfg daily ||
            !cfg.enableContentDimming) = true
        · rw [if_pos hg]
        · rw [if_neg hg, if_pos (by simp [h])]
    rw [hout]
    rfl
  · intro hmode hok
    unfold buildDecorations
    have hout : focusOutcome cfg daily selEmpty doc cursor = .empty := by
      unfold focusOutcome
      split
      · rfl
      split
      · rfl
      split
      case h_1 => rw [if_pos (by simp [hok])]
      case h_2 => rw [if_pos (by simp [hok])]
      case h_3 => rw [if_pos (by simp [hok])]
      case h_4 heq => exact absurd heq hmode
    rw [hout]
    rfl

/-- Under the gating hypotheses, focusOutcome reduces to the section-mode
header computation of main.js lines 558-592. -/
theorem focusOutcome_sect (cfg : Config) (daily : Bool)
    (doc : List (List Char)) (cursor : Nat)
    (hgate : shouldApplyTypewriterFeatures cfg daily = true)
    (hdim : cfg.enableContentDimming = true)
    (hmode : cfg.focusMode = .sect) (hok : cfg.headerOk = true) :
    focusOutcome cfg daily true doc cursor =
      (match ((headerFroms cfg (mkLines doc)).filter
          (fun p => decide (p ≤ cursor))).getLast? with
       | some h =>
         match (headerFroms cfg (mkLines doc)).find?
             (fun p => decide (h < p)) with
         | some h2 => DimOutcome.focus h h2
         | none => DimOutcome.focus h (docLength doc)
       | none =>
         match headerFroms cfg (mkLines doc) with
         | [] => DimOutcome.empty
         | h0 :: _ => DimOutcome.focus 0 h0) := by
  simp only [focusOutcome, hgate, hdim, hmode, hok, Bool.not_true,
    Bool.or_self, Bool.not_false]
  rfl

/-- C3: in section mode (with the gates on and a compilable pattern): if the
document has no header-matching line, nothing is dimmed; if some header
starts at or before the cursor, the focus section runs from the nearest
such header (inclusive) to the next header (exclusive), or to the document
end; and if headers exist but all start after the cursor, the focus section
is [0, firstHeaderOffset). -/
theorem section_mode_extent (cfg : Config) (daily : Bool)
    (doc : List (List Char)) (cursor : Nat) (hdoc : doc ≠ [])
    (hcur : cursor ≤ docLength doc)
    (hgate : shouldApplyTypewriterFeatures cfg daily = true)
    (hdim : cfg.enableContentDimming = true)
    (hmode : cfg.focusMode = .sect) (hok : cfg.headerOk = true) :
    (headerFroms cfg (mkLines doc) = [] →
      buildDecorations cfg daily true doc cursor = []) ∧
    ((∃ h ∈ headerFroms cfg (mkLines doc), h ≤ cursor) →
      ∃ s e, focusOutcome cfg daily true doc cursor = .focus s e ∧
        s ∈ headerFroms cfg (mkLines doc) ∧ s ≤ cursor ∧
        (∀ h ∈ headerFroms cfg (mkLines doc), h ≤ cursor → h ≤ s) ∧
        ((∃ h ∈ headerFroms cfg (mkLines doc), s < h) →
          e ∈ headerFroms cfg (mkLines doc) ∧ s < e ∧
          ∀ h ∈ headerFroms cfg (mkLines doc), s < h → e ≤ h) ∧
        ((∀ h ∈ headerFroms cfg (mkLines doc), h ≤ s) →
          e = docLength doc)) ∧
    ((headerFroms cfg (mkLines doc) ≠ [] ∧
      ∀ h ∈ headerFroms cfg (mkLines doc), cursor < h) →
      ∃ h0 rest, headerFroms cfg (mkLines doc) = h0 :: rest ∧
        focusOutcome cfg daily true doc cursor = .focus 0 h0) := by
  have hsect := focusOutcome_sect cfg daily doc cursor hgate hdim hmode hok
  have hpwh := headerFroms_pairwise cfg doc
  have hpwf : List.Pairwise (· < ·) ((headerFroms cfg (mkLines doc)).filter
      (fun p => decide (p ≤ cursor))) :=
    List.Pairwise.filter _ hpwh
  refine ⟨?_, ?_, ?_⟩
  · intro hnil
    unfold buildDecorations
    rw [hsect, hnil]
    rfl
  · intro hex
    rcases hlast : ((headerFroms cfg (mkLines doc)).filter
        (fun p => decide (p ≤ cursor))).getLast? with _ | S
    · exfalso
      rw [List.getLast?_eq_none_iff] at hlast
      obtain ⟨h, hh, hhc⟩ := hex
      have hmem : h ∈ (headerFroms cfg (mkLines doc)).filter
          (fun p => decide (p ≤ cursor)) :=
        List.mem_filter.mpr ⟨hh, by simpa using hhc⟩
      rw [hlast] at hmem
      simp at hmem
    · obtain ⟨hSmem, hSle⟩ := List.mem_filter.mp (mem_getLast?_of hlast)
      have hSle2 : S ≤ cursor := by simpa using hSle
      have hmax : ∀ h ∈ headerFroms cfg (mkLines doc),
          h ≤ cursor → h ≤ S := by
        intro h hh hhc
        exact pairwise_getLast_max hpwf hlast h
          (List.mem_filter.mpr ⟨hh, by simpa using hhc⟩)
      rcases hfind : (headerFroms cfg (mkLines doc)).find?
          (fun p => decide (S < p)) with _ | E2
      · refine ⟨S, docLength doc, ?_, hSmem, hSle2, hmax, ?_, fun _ => rfl⟩
        · rw [hsect]
          simp only [hlast, hfind]
        · rintro ⟨h, hh, hSh⟩
          rw [List.find?_eq_none] at hfind
          exact absurd (by simpa using hSh) (by simpa using hfind h hh)
      · refine ⟨S, E2, ?_, hSmem, hSle2, hmax, ?_, ?_⟩
        · rw [hsect]
          simp only [hlast, hfind]
        · intro _
          refine ⟨List.mem_of_find?_eq_some hfind,
            by simpa using List.find?_some hfind, ?_⟩
          exact find?_min_sorted hpwh hfind
        · intro hall2
          have h1 := hall2 E2 (List.mem_of_find?_eq_some hfind)
          have h2 : S < E2 := by simpa using List.find?_some hfind
          omega
  · rintro ⟨hne, hall⟩
    have hfilnil : (headerFroms cfg (mkLines doc)).filter
        (fun p => decide (p ≤ cursor)) = [] := by
      rw [List.filter_eq_nil_iff]
      intro a ha
      have := hall a ha
      simp
      omega
    rcases hhps : headerFroms cfg (mkLines doc) with _ | ⟨h0, rest⟩
    · exact absurd hhps hne
    · refine ⟨h0, rest, rfl, ?_⟩
      rw [hsect, hfilnil]
      simp only [List.getLast?_nil, hhps]

/-- Witness for C3: with the default-style header "# A" at offset 0 and the
cursor in the following content line, the section focus starts at that
header. -/
theorem section_mode_extent_witness :
    ∃ s e,
      focusOutcome ⟨true, false, true, .sect, true,
          fun t => decide (t.take 1 = ['#'])⟩ false true
        [strL "# A", strL "xy"] 5 = .focus s e ∧
      s ∈ headerFroms ⟨true, false, true, .sect, true,
          fun t => decide (t.take 1 = ['#'])⟩
        (mkLines [strL "# A", strL "xy"]) ∧ s ≤ 5 ∧
      (∀ h ∈ headerFroms ⟨true, false, true, .sect, true,
          fun t => decide (t.take 1 = ['#'])⟩
        (mkLines [strL "# A", strL "xy"]), h ≤ 5 → h ≤ s) ∧
      ((∃ h ∈ headerFroms ⟨true, false, true, .sect, true,
          fun t => decide (t.take 1 = ['#'])⟩
        (mkLines [strL "# A", strL "xy"]), s < h) →
        e ∈ headerFroms ⟨true, false, true, .sect, true,
            fun t => decide (t.take 1 = ['#'])⟩
          (mkLines [strL "# A", strL "xy"]) ∧ s < e ∧
        ∀ h ∈ headerFroms ⟨true, false, true, .sect, true,
            fun t => decide (t.take 1 = ['#'])⟩
          (mkLines [strL "# A", strL "xy"]), s < h → e ≤ h) ∧
      ((∀ h ∈ headerFroms ⟨true, false, true, .sect, true,
          fun t => decide (t.take 1 = ['#'])⟩
        (mkLines [strL "# A", strL "xy"]), h ≤ s) →
        e = docLength [strL "# A", strL "xy"]) :=
  (section_mode_extent _ false _ 5 (by decide) (by decide) (by decide)
    (by decide) rfl rfl).2.1 ⟨0, by decide, by decide⟩

/-- Witness for C2 (amended): a non-empty selection yields no ranges, and a
non-compiling pattern in section mode yields no ranges. -/
theorem empty_ranges_gating_witness :
    buildDecorations ⟨true, false, true, .sentence, true, fun _ => false⟩
      false false [strL "ab"] 0 = [] ∧
    buildDecorations ⟨true, false, true, .sect, false, fun _ => false⟩
      false true [strL "ab"] 0 = [] :=
  ⟨(empty_ranges_gating _ false false _ 0).1 (Or.inr (Or.inr rfl)),
   (empty_ranges_gating _ false true _ 0).2 (by decide) rfl⟩

end Scroller
